import Mathlib

/-
Verification of the FPGA_common core (src/FPGA_common/FPGA_common.cpp) of the
LimeSuite repository against its natural-language specification.

Modelling conventions (shallow embedding):
* C/C++ `double`/`float` values are modelled as exact rationals (ℚ).  Where a
  float intermediate (`coef` in SetPllFrequency, the phase-step floats) could
  round, this is noted at the definition; all concrete inputs used below are
  exactly representable, so the idealisation agrees with the hardware types
  there.
* Machine integers are modelled as ℤ/ℕ with explicit reductions: conversion to
  `uint8_t`/`int16_t` is an explicit `% 2^w` (centred for signed), an
  arithmetic right shift `x >> k` on a signed value is division by `2^k`
  rounded towards minus infinity (Lean's `Int` `/` is Euclidean division,
  which coincides with floor division for positive divisors), a cast
  `int(x)` of a double is truncation towards zero (`ratTrunc`), and a mask
  `x & (2^k - 1)` is `x % 2^k`.  A bitwise-or of values with disjoint bit
  ranges is written as `+` where that is provable from the operand ranges;
  each such spot is commented.
* Unbounded C++ loops are written with an explicit fuel argument chosen large
  enough that, for every input the theorems speak about, the loop's own exit
  condition fires first; each fuel-exhaustion branch is commented.
-/

/-- Truncation of a rational towards zero, the semantics of C++ `int(x)` for
an in-range double `x`.  For a negative argument this is the ceiling, written
as `-⌊-x⌋`. -/
def ratTrunc (x : ℚ) : ℤ := if x < 0 then -⌊-x⌋ else ⌊x⌋

/-- Absolute value on ℚ (C `fabs`), kept as a plain conditional. -/
def ratAbs (x : ℚ) : ℚ := if x < 0 then -x else x

/-- Conversion of an int value to `uint8_t` (reduction mod 256), as happens
when the C++ code stores an int expression into a byte buffer. -/
def toU8 (x : ℤ) : ℤ := x % 256

/-- Conversion of an int value to `int16_t`: reduction mod 2^16 into the
centred interval [-32768, 32767]. -/
def toI16 (x : ℤ) : ℤ := (x + 32768) % 65536 - 32768

/-- Linux errno codes used by `ReportError` in FPGA_common.cpp; `ReportError`
returns the code it is given. -/
def errPerm : ℤ := 1

/-- Transport I/O failure code (EIO). -/
def errIo : ℤ := 5

/-- No-device code (ENODEV). -/
def errNoDev : ℤ := 19

/-- Busy / hardware-error code (EBUSY). -/
def errBusy : ℤ := 16

/-- Range-error code (ERANGE). -/
def errRange : ℤ := 34

/-
Sample codec: FPGA::Samples2FPGAPacketPayload / FPGA::FPGAPacketPayload2Samples,
compressed (12-bit) branch.  A sample is an (i, q) pair of `int16_t` values.
-/

/-- Three wire bytes produced for one channel's (i, q) pair by the compressed
branch of `Samples2FPGAPacketPayload` (FPGA_common.cpp lines 483-485):
`buffer[b++] = i; buffer[b++] = ((i >> 8) & 0x0F) | (q << 4); buffer[b++] = q >> 4;`.
`i >> 8` is an arithmetic shift, i.e. `i / 256`; `& 0x0F` is `% 16`; the `|`
combines a value in [0,15] with `16*q`, whose low 4 bits are 0, so it is `+`. -/
def packPairBytes (i q : ℤ) : List ℤ :=
  [toU8 i, toU8 (i / 256 % 16 + 16 * q), toU8 (q / 16)]

/-- Compressed packing of a single-channel sample list (the `mimo == false`
case of the compressed branch, iterating `src` over the samples). -/
def packMono : List (ℤ × ℤ) → List ℤ
  | [] => []
  | (i, q) :: rest => packPairBytes i q ++ packMono rest

/-- Compressed packing in MIMO mode: channel 1's three bytes follow channel
0's three bytes for each sample index.  The C++ indexes two parallel arrays;
here the channels are zipped into one list of sample pairs. -/
def packMimo : List ((ℤ × ℤ) × (ℤ × ℤ)) → List ℤ
  | [] => []
  | ((i0, q0), (i1, q1)) :: rest =>
      packPairBytes i0 q0 ++ packPairBytes i1 q1 ++ packMimo rest

/-- Decoding of the I sample from bytes b0, b1 (FPGA_common.cpp lines 436-439):
`sample = b0; sample |= b1 << 8;` (an int16 truncation of `b0 + 256*b1`, the or
being a disjoint-bits sum since `b0 < 256`), then `sample <<= 4` (int16
truncation again) and an arithmetic `>> 4`. -/
def decodeI (b0 b1 : ℤ) : ℤ := toI16 (16 * toI16 (b0 + 256 * b1)) / 16

/-- Decoding of the Q sample from bytes b1, b2 (lines 441-443): int16
truncation of `b1 + 256*b2` followed by an arithmetic `>> 4`. -/
def decodeQ (b1 b2 : ℤ) : ℤ := toI16 (b1 + 256 * b2) / 16

/-- Compressed unpacking, single channel: the loop of
`FPGAPacketPayload2Samples` consumes three bytes per collected sample.  A
ragged tail of fewer than three bytes would make the C++ read past the buffer;
the model stops there (pack never produces such a tail). -/
def unpackMono : List ℤ → List (ℤ × ℤ)
  | b0 :: b1 :: b2 :: rest => (decodeI b0 b1, decodeQ b1 b2) :: unpackMono rest
  | _ => []

/-- Compressed unpacking, MIMO: six bytes per collected sample index, three
per channel. -/
def unpackMimo : List ℤ → List ((ℤ × ℤ) × (ℤ × ℤ))
  | b0 :: b1 :: b2 :: b3 :: b4 :: b5 :: rest =>
      ((decodeI b0 b1, decodeQ b1 b2), (decodeI b3 b4, decodeQ b4 b5)) :: unpackMimo rest
  | _ => []

/-- Predicate: a sample value fits in 12 significant bits (signed). -/
def fits12 (x : ℤ) : Prop := -2048 ≤ x ∧ x ≤ 2047


/-
PLL divider search: the pure numeric core of FPGA::SetPllFrequency
(FPGA_common.cpp lines 216-330).
-/

/-- Clock request record FPGA::FPGA_PLL_clock (declared in FPGA_common.h).
`rd_actualFrequency` is an output and is modelled as a separate result. -/
structure FPGA_PLL_clock where
  index : ℤ := 0
  outFrequency : ℚ := 0
  phaseShift_deg : ℚ := 0
  bypass : Bool := false
  findPhase : Bool := false
deriving Repr

/-- Cast of a nonnegative double to an unsigned (or int) C integer: floor.
For a negative argument the C++ behaviour differs (truncation towards zero
resp. wrap-around); no theorem below evaluates it there. -/
def ratFloorN (x : ℚ) : ℕ := (⌊x⌋).toNat

/-- First candidate VCO frequency tried for one output (line 222):
`freq = outFrequency * (int(600e6 / outFrequency) + 1)`, stored into an
`unsigned long`. -/
def firstMult (f : ℚ) : ℕ := ratFloorN (f * (ratFloorN (600000000 / f) + 1))

/-- Multiples of one output frequency falling in the VCO window (the `while`
loop of lines 223-228).  `freq` lives in an `unsigned long`, so each
`freq += outFrequency` step floors; the window bounds are integers, so the
comparison against the double limits is exact on ℕ.  Fuel 200 exceeds the
at most `(1300e6-600e6)/5e6 + 2` iterations possible for any frequency
admitted by the 5 MHz validation. -/
def genMults (f : ℚ) : ℕ → ℕ → List ℕ
  | 0, _ => []
  | fuel + 1, freq =>
      if 600000000 ≤ freq ∧ freq ≤ 1300000000 then
        freq :: genMults f fuel (ratFloorN (freq + f))
      else []

/-- Ordered insertion without duplicates, the effect of inserting a key into
the `std::map` keyed by candidate frequency (line 226). -/
def insertSorted (x : ℕ) : List ℕ → List ℕ
  | [] => [x]
  | y :: ys =>
      if x < y then x :: y :: ys
      else if x = y then y :: ys
      else y :: insertSorted x ys

/-- Candidate VCO set `availableVCOs` (lines 218-229): every clock in the
list contributes its in-window multiples, bypassed or not; the map keeps the
keys deduplicated in ascending order. -/
def vcoCandidates (clocks : List FPGA_PLL_clock) : List ℕ :=
  clocks.foldl
    (fun acc c =>
      (genMults c.outFrequency 200 (firstMult c.outFrequency)).foldl
        (fun a x => insertSorted x a) acc)
    []

/-- Score of one candidate (lines 235-242): the number of clocks, skipping
zero-frequency and bypassed ones, whose (int-truncated) frequency divides the
candidate exactly. -/
def scoreOf (clocks : List FPGA_PLL_clock) (cand : ℕ) : ℕ :=
  clocks.countP fun c =>
    !(c.outFrequency == 0) && !c.bypass && (cand % ratFloorN c.outFrequency == 0)

/-- Maximal score over the candidate set (lines 243-246). -/
def bestScore (clocks : List FPGA_PLL_clock) (cands : List ℕ) : ℕ :=
  cands.foldl (fun bs c => max bs (scoreOf clocks c)) 0

/-- The (N, M) divider loop for one candidate (lines 256-268): starting from
`Ntemp = 1`, `Mtemp = int(coef + 0.5)`, keep incrementing `Ntemp` while
`inputFreq / Ntemp > 5e6`, recomputing `Mtemp = int(coef*Ntemp + 0.5)`; if
`Mtemp` exceeds 255 step back once and stop.  `coef` is computed in a C
float; modelled exactly in ℚ.  At every exit the returned M equals
`int(coef*n + 0.5)` for the returned n, so the fuel-exhaustion branch (made
unreachable by `nmFuel`) returns the same expression. -/
def nmLoop (input coef : ℚ) : ℕ → ℤ → ℤ × ℤ
  | 0, n => (n, ratTrunc (coef * n + 1 / 2))
  | fuel + 1, n =>
      if 5000000 < input / n then
        let m1 := ratTrunc (coef * (n + 1) + 1 / 2)
        if 255 < m1 then (n, ratTrunc (coef * n + 1 / 2))
        else nmLoop input coef fuel (n + 1)
      else (n, ratTrunc (coef * n + 1 / 2))

/-- Fuel bound for `nmLoop`: the loop condition fails once `n ≥ input/5e6`. -/
def nmFuel (input : ℚ) : ℕ := ratFloorN (input / 5000000) + 2

/-- The (N, M) pair the search derives from one candidate frequency,
with `coef = it.first / inputFreq` (line 255). -/
def nmSearch (input : ℚ) (cand : ℕ) : ℤ × ℤ :=
  nmLoop input ((cand : ℚ) / input) (nmFuel input) 1

/-- Running state of the best-deviation search (lines 248-250): N, M, the
selected candidate `Fvco` and the best deviation so far.  C++ leaves `Fvco`
uninitialised; the model starts it at 0, which never survives to a success
return (N = 0 forces the range check to fail). -/
structure PllSel where
  N : ℤ
  M : ℤ
  fvcoSel : ℚ
  bestDev : ℚ
deriving Repr

/-- One step of the best-deviation search (lines 251-278) for a candidate
that achieved the best score: run the (N, M) loop, compute
`deviation = fabs(it.first - inputFreq*Mtemp/Ntemp)` and keep the new triple
when `deviation <= bestDeviation` (so the last tying candidate in ascending
order wins). -/
def selStep (input : ℚ) (st : PllSel) (cand : ℕ) : PllSel :=
  let nm := nmSearch input cand
  let dev := ratAbs ((cand : ℚ) - input * nm.2 / nm.1)
  if dev ≤ st.bestDev then ⟨nm.1, nm.2, (cand : ℚ), dev⟩ else st

/-- Per-output result: the C divider `int(Fvco / outFrequency + 0.5)`
(line 304) and the reported achieved frequency
`(inputFreq * M / N) / (chigh + clow)` (line 320), where `clow = C / 2` and
`chigh = clow + C % 2` (both conventions of integer division make
`chigh + clow = C`). -/
structure PllOutput where
  cdiv : ℤ
  rd_actualFrequency : ℚ
deriving Repr

/-- Outputs section of SetPllFrequency (lines 302-321), restricted to the
values the claims are about. -/
def pllOutputs (input : ℚ) (M N : ℤ) (fvco : ℚ) (clocks : List FPGA_PLL_clock) :
    List PllOutput :=
  clocks.map fun c =>
    let cdiv := ratTrunc (fvco / c.outFrequency + 1 / 2)
    let clow := cdiv / 2
    let chigh := clow + cdiv % 2
    ⟨cdiv, (input * M / N) / ((chigh + clow : ℤ) : ℚ)⟩

/-- The pure divider computation of FPGA::SetPllFrequency (lines 216-330):
candidate generation, scoring, (N, M) selection, the final
`Fvco = inputFreq*M/N`, its range check (line 284, `ReportError(ERANGE,...)`
on failure), and the per-output dividers.  The check runs on an IEEE double:
when the selection loop never assigned — N = 0 together with a zero
numerator `inputFreq*M` — the division is 0.0/0.0, `Fvco` is NaN, both
comparisons `Fvco < 600e6 || Fvco > 1300e6` are false, and the function
proceeds to SUCCESS with N = M = 0.  The first branch below models exactly
that: its `none` fields stand for the NaN `Fvco` and for the per-output
values, which are undefined (line 304 casts NaN to `int`).  When N = 0 with
a nonzero numerator the C++ value is ±infinity, which the range comparison
rejects, and the else branch also rejects (the ℚ convention `x/0 = 0` falls
below the lower limit) — ERANGE either way. -/
def setPllFreqDividers (input : ℚ) (clocks : List FPGA_PLL_clock) :
    Except ℤ (ℤ × ℤ × Option ℚ × Option (List PllOutput)) :=
  let cands := vcoCandidates clocks
  let bs := bestScore clocks cands
  let sel := cands.foldl
    (fun st c => if scoreOf clocks c = bs then selStep input st c else st)
    ⟨0, 0, 0, 1000000000⟩
  if sel.N = 0 ∧ input * sel.M = 0 then Except.ok (sel.N, sel.M, none, none)
  else
    let fvco := input * sel.M / sel.N
    if fvco < 600000000 ∨ 1300000000 < fvco then Except.error errRange
    else Except.ok (sel.N, sel.M, some fvco,
      some (pllOutputs input sel.M sel.N fvco clocks))

/-- Candidate-set characterisation following the claim's words (for the C4
refinement comparison): the deduplicated union, over the NON-bypassed output
frequencies f, of all integer multiples of f lying in [600e6, 1300e6],
including a multiple equal to 600e6 itself. -/
def specVcoMultiple (clocks : List FPGA_PLL_clock) (x : ℕ) : Prop :=
  ∃ c ∈ clocks, ¬c.bypass ∧
    ∃ k : ℕ, (x : ℚ) = k * c.outFrequency ∧
      (600000000 : ℚ) ≤ (x : ℚ) ∧ (x : ℚ) ≤ 1300000000

/-
Register-protocol constants (FPGA_common.cpp lines 16-31).
-/

/-- PLLCFG start bit of register 0x0023. -/
def PLLCFG_START : ℕ := 1

/-- PHCFG start bit of register 0x0023. -/
def PHCFG_START : ℕ := 2

/-- PLL reset bit of register 0x0023. -/
def PLLRST_START : ℕ := 4

/-- Phase up/down bit (1 << 13). -/
def PHCFG_UPDN : ℕ := 8192

/-- Phase search mode bit (1 << 14). -/
def PHCFG_MODE : ℕ := 16384

/-- Busy/status register address 0x0021. -/
def busyAddr : ℕ := 33

/-- Observable hardware operations performed through the connection. -/
inductive Ev where
  | readReg : ℕ → Ev
  | writeReg : ℕ → ℕ → Ev
  | writeRegs : List (ℕ × ℕ) → Ev
deriving DecidableEq, Repr

/-- Connection oracle for register reads: transport status and returned
value, by address (each address is read at most once in the modelled
fragments). -/
structure Conn where
  readStatus : ℕ → ℤ
  readVal : ℕ → ℕ

/-- Result of the early (validation) part of a call. -/
structure EarlyOut where
  logs : List ℤ
  events : List Ev
  earlyReturn : Option ℤ
deriving DecidableEq, Repr

/-- Validation prefix of FPGA::SetPllFrequency (lines 149-169), up to and
including the first hardware operations (the read and write of the direct
clock control register 0x0005).  `ReportError` codes that are returned are
recorded in `earlyReturn`; a `ReportError` whose result the code discards —
the `pllIndex > 15` check at line 155 has no `return` — is recorded in
`logs` only.  The write value `drct & ~(1 << pllIndex)` clears bit
`pllIndex` (for pllIndex ≥ 32 the C++ shift is undefined; no theorem
evaluates it there). -/
def setPllEarly (connOpen : Bool) (pllIndex : ℕ) (inputFreq : ℚ)
    (clocks : List FPGA_PLL_clock) (c : Conn) : EarlyOut :=
  if ¬connOpen then ⟨[], [], some errNoDev⟩
  else
    let logs := if 15 < pllIndex then [errRange] else []
    if inputFreq < 5000000 then ⟨logs, [], some errRange⟩
    else if (clocks.find? fun cl =>
        decide (cl.outFrequency < 5000000) && !cl.bypass).isSome then
      ⟨logs, [], some errRange⟩
    else
      let v := c.readVal 5
      ⟨logs, [Ev.readReg 5, Ev.writeReg 5 (v - v / 2 ^ pllIndex % 2 * 2 ^ pllIndex)],
        none⟩

/-- FPGA::ResetTimestamp (lines 66-89), debug build (the `#ifndef NDEBUG`
guard reads 0x000A and rejects when RX_EN is set).  Returns the function's
return value and the register writes performed.  When a register read fails
(nonzero transport status) the function returns 0 — the success code — with
no write (lines 72-73 and 82-83).  On the write path, `& ~3` clears bits 0-1
(`r - r % 4`) and `| 3` sets them. -/
def resetTimestamp (c : Conn) : ℤ × List (ℕ × ℕ) :=
  if c.readStatus 10 ≠ 0 then (0, [])
  else if c.readVal 10 % 2 = 1 then (errPerm, [])
  else if c.readStatus 9 ≠ 0 then (0, [])
  else
    let r := c.readVal 9
    let lo := r - r % 4
    (0, [(9, lo), (9, lo + 3), (9, lo)])

/-- Outcome of a status-polling stage. -/
inductive PollResult where
  | success
  | timeout
  | hwerror
deriving DecidableEq, Repr

/-- The PLLCFG polling loop of SetPllFrequency (lines 332-344, and
identically 199-211): a do-while that reads the status register, extracts
`done = statusReg & 0x1` and `errorCode = (statusReg >> 7) & 0xFF`, sleeps
10 ms, and continues while not done, no error and under 3 s; afterwards the
code returns Timeout when the elapsed time exceeds 3 s, a hardware error
when the error code is nonzero, and success otherwise.  `status k` is the
value read at the k-th iteration and `t k` the elapsed milliseconds measured
at that iteration (the first loop measures after the sleep, the second
before it; the theorems only assume each measurement advances by the 10 ms
sleep per iteration, within 15 ms of it, and never lands exactly on the
3000 ms boundary).  The fuel-exhaustion branch is unreachable under those
assumptions, since the loop exits by the 3000 ms bound within 301
iterations. -/
def pllCfgPoll (status : ℕ → ℕ) (t : ℕ → ℚ) : ℕ → ℕ → PollResult
  | 0, _ => PollResult.timeout
  | fuel + 1, k =>
      let s := status k
      let err := s / 128 % 256
      if s % 2 ≠ 1 ∧ err = 0 ∧ t k < 3000 then pllCfgPoll status t fuel (k + 1)
      else if 3000 < t k then PollResult.timeout
      else if err ≠ 0 then PollResult.hwerror
      else PollResult.success

/-- The polling stage as guarded by the board type (lines 333 and 200): the
do-while body runs only for LMS_DEV_LIMESDR_QPCIE.  For any other board
`done`/`errorCode` keep their initial values false/0 and the stale
timestamps leave `t2 - t1 ≤ 0`, so the stage falls through as success. -/
def pllCfgPollStage (isQPCIE : Bool) (status : ℕ → ℕ) (t : ℕ → ℚ) : PollResult :=
  if isQPCIE then pllCfgPoll status t 302 0 else PollResult.success

/-- Connection oracle for FPGA::SetPllClock: result of the k-th
`WriteRegisters` batch, the k-th busy-register read, and the elapsed
milliseconds at the k-th poll iteration (measured before the sleep). -/
structure ClockConn where
  wrStatus : ℕ → ℤ
  status : ℕ → ℕ
  t : ℕ → ℚ

/-- The PHCFG polling loop of SetPllClock (lines 118-126), returning the
trace of status reads together with the final done flag, error code and
elapsed time.  Fuel exhaustion is unreachable under the 10 ms sleep bound. -/
def phcfgPoll (cc : ClockConn) : ℕ → ℕ → List Ev × Bool × ℕ × ℚ
  | 0, k => ([], false, 0, cc.t k)
  | fuel + 1, k =>
      let s := cc.status k
      let done := s % 2 == 1
      let err := s / 128 % 256
      if done = false ∧ err = 0 ∧ cc.t k < 3000 then
        let r := phcfgPoll cc fuel (k + 1)
        (Ev.readReg busyAddr :: r.1, r.2)
      else ([Ev.readReg busyAddr], done, err, cc.t k)

/-- FPGA::SetPllClock (lines 91-135): builds the four-write PHCFG batch
(clear start, step count `abs(nSteps)`, direction/counter-index word, start
bit), issues it, polls when `waitLock`, and clears the start bit.  Returns
(events, logged-but-discarded ReportError codes, return value, final
reg23val).  Bit operations are rendered arithmetically: `& ~1` is
`v - v % 2`, `& ~(0xF<<8)` keeps bits 0-7 and 12-15, `& ~(1<<14)` and
`& ~(1<<13)` clear single bits, `cnt_ind << 8` is or-ed in with `Nat.lor`
(the C++ clears only 4 of the 5 index bits, so the fields can overlap).
Both failed `WriteRegisters` calls (lines 111-112 and 132-133) pass their
error to `ReportError` WITHOUT returning, so they only log; when `waitLock`
is false the loop is skipped and the stale timers leave `t2 - t1 ≤ 0`,
modelled as elapsed 0. -/
def setPllClock (clockIndex nSteps : ℤ) (waitLock : Bool) (reg23val : ℕ)
    (cc : ClockConn) : List Ev × List ℤ × ℤ × ℕ :=
  let r0 := reg23val - reg23val % 2
  let cnt_ind := ((clockIndex + 2) % 32).toNat
  let r1a := reg23val % 256 + reg23val / 4096 * 4096
  let r1b := r1a - r1a / 16384 % 2 * 16384
  let r1c := Nat.lor r1b (cnt_ind * 256)
  let r1 := if 0 ≤ nSteps then Nat.lor r1c PHCFG_UPDN
            else r1c - r1c / 8192 % 2 * 8192
  let batch := [(35, r0), (36, nSteps.natAbs), (35, r1), (35, Nat.lor r1 PHCFG_START)]
  let evs0 := [Ev.writeRegs batch]
  let logs0 := if cc.wrStatus 0 ≠ 0 then [errIo] else []
  let poll := if waitLock then phcfgPoll cc 302 0 else ([], false, 0, 0)
  let evs1 := evs0 ++ poll.1
  if 3000 < poll.2.2.2 then (evs1, logs0, errNoDev, r1)
  else if poll.2.2.1 ≠ 0 then (evs1, logs0, errBusy, r1)
  else
    let logs1 := logs0 ++ (if cc.wrStatus 1 ≠ 0 then [errIo] else [])
    (evs1 ++ [Ev.writeRegs [(35, r1 - r1 / 2 % 2 * 2)]], logs1, 0, r1)

/-- Phase resolution computed for one output in fixed-phase mode
(lines 348-351): `fOut_MHz = inputFreq/1e6`, `Fstep_us = 1/(8*fOut_MHz*C)`,
`Fstep_deg = (360*Fstep_us)/(1/fOut_MHz)`.  The C++ computes these in
float; modelled exactly in ℚ. -/
def fstepDeg (inputFreq : ℚ) (cdiv : ℤ) : ℚ :=
  let fOutMHz := inputFreq / 1000000
  let fstepUs := 1 / (8 * fOutMHz * cdiv)
  (360 * fstepUs) / (1 / fOutMHz)

/-- Step count of fixed-phase mode (line 354):
`const int nSteps = 0.49 + phaseShift_deg / Fstep_deg` — truncation towards
zero of the biased quotient. -/
def nStepsFixed (inputFreq : ℚ) (cdiv : ℤ) (phase : ℚ) : ℤ :=
  ratTrunc (0.49 + phase / fstepDeg inputFreq cdiv)

/-- Modelled from the spec: the fixed per-packet sample capacity
`samples16InPkt` is declared outside this file (dataTypes.h, not under
src/); the spec says only that each chunk's packed payload fits a fixed
maximum packet payload capacity.  The conventional value 1020 (a 4080-byte
payload of 16-bit samples) is used; the theorems are stated for an
arbitrary capacity and only the concrete instances use this value. -/
def samples16InPkt : ℕ := 1020

/-- Chunking loop of FPGA::UploadWFM (lines 560-582): while samples remain,
send `min(cnt, samplesInPkt/chCount)` samples.  When `cap / ch = 0` the C++
loop would never terminate; the model returns [] there (unreachable for the
real capacity and 1-2 channels). -/
def wfmChunkCounts (cap ch : ℕ) (cnt : ℕ) : List ℕ :=
  if h1 : cnt = 0 then []
  else if h2 : cap / ch = 0 then []
  else
    (if cap / ch < cnt then cap / ch else cnt) ::
      wfmChunkCounts cap ch (cnt - (if cap / ch < cnt then cap / ch else cnt))
termination_by cnt
decreasing_by
  generalize hq : cap / ch = q at h2 ⊢
  by_cases h : q < cnt
  · rw [dif_pos h]
    omega
  · rw [dif_neg h]
    omega

/-- Payload bytes of one packet (lines 570-575): the compressed pack of `s`
samples over `ch` channels yields `bufPos = 3*ch*s` bytes (the return value
of `Samples2FPGAPacketPayload`, cf. `packMono_length`/`packMimo_length`),
and the code sends `payloadSize = (bufPos/4)*4`. -/
def pktPayloadBytes (ch s : ℕ) : ℕ := 3 * ch * s / 4 * 4

/-- Total payload bytes sent by a successful UploadWFM. -/
def uploadPayloadTotal (cap ch cnt : ℕ) : ℕ :=
  ((wfmChunkCounts cap ch cnt).map (pktPayloadBytes ch)).sum

/-- Table of supported reference clocks (line 775), in Hz. -/
def clkTbl : List ℚ := [30720000, 38400000, 40000000, 52000000]

/-- The snapping scan of FPGA::DetectRefClk (lines 808-816): starting from
`i = 0, delta = 100e6`, advance while the deviation from the next table
entry does not exceed the current one; stop at the first index where the
deviation stops decreasing.  Fuel 5 covers the at most 4 iterations. -/
def refScanLoop (count : ℚ) : ℕ → ℕ → ℚ → ℕ
  | 0, i, _ => i
  | fuel + 1, i, delta =>
      if i < 4 then
        if delta < ratAbs (count - clkTbl.getD i 0) then i
        else refScanLoop count fuel (i + 1) (ratAbs (count - clkTbl.getD i 0))
      else i

/-- Snapped reference clock `clkTbl[i - 1]` (line 818).  For an estimate
further than 100 MHz below the first entry the C++ would index out of
bounds (i = 0); `getD` leaves that case at a default the theorems never
reach. -/
def detectRefClkSnap (count : ℚ) : ℚ :=
  clkTbl.getD (refScanLoop count 5 0 100000000 - 1) 0

/-
--------------------------------------------------------------------------
Theorems
--------------------------------------------------------------------------
-/

theorem roundtrip_pair (i q : ℤ) (hi : fits12 i) (hq : fits12 q) :
    decodeI (toU8 i) (toU8 (i / 256 % 16 + 16 * q)) = i ∧
    decodeQ (toU8 (i / 256 % 16 + 16 * q)) (toU8 (q / 16)) = q := by
  obtain ⟨hi1, hi2⟩ := hi
  obtain ⟨hq1, hq2⟩ := hq
  constructor
  · unfold decodeI toU8 toI16
    omega
  · unfold decodeQ toU8 toI16
    omega

theorem packMono_unpack_eq (s : List (ℤ × ℤ))
    (h : ∀ p ∈ s, fits12 p.1 ∧ fits12 p.2) :
    unpackMono (packMono s) = s := by
  induction s with
  | nil => rfl
  | cons hd tl ih =>
      obtain ⟨i, q⟩ := hd
      have hhd := h (i, q) (List.mem_cons_self _ _)
      have := roundtrip_pair i q hhd.1 hhd.2
      simp only [packMono, packPairBytes, List.cons_append, List.nil_append,
        unpackMono, this.1, this.2, List.cons.injEq]
      exact ⟨trivial, ih fun p hp => h p (List.mem_cons_of_mem _ hp)⟩

theorem packMimo_unpack_eq (s : List ((ℤ × ℤ) × (ℤ × ℤ)))
    (h : ∀ p ∈ s, (fits12 p.1.1 ∧ fits12 p.1.2) ∧ (fits12 p.2.1 ∧ fits12 p.2.2)) :
    unpackMimo (packMimo s) = s := by
  induction s with
  | nil => rfl
  | cons hd tl ih =>
      obtain ⟨⟨i0, q0⟩, ⟨i1, q1⟩⟩ := hd
      have hhd := h _ (List.mem_cons_self _ _)
      have h0 := roundtrip_pair i0 q0 hhd.1.1 hhd.1.2
      have h1 := roundtrip_pair i1 q1 hhd.2.1 hhd.2.2
      simp only [packMimo, packPairBytes, List.cons_append, List.nil_append,
        unpackMimo, h0.1, h0.2, h1.1, h1.2, List.cons.injEq]
      exact ⟨trivial, ih fun p hp => h p (List.mem_cons_of_mem _ hp)⟩

/-- C2: for any sequence of (I, Q) samples whose values fit in 12 significant
bits, packing with the compressed branch of `Samples2FPGAPacketPayload` and
unpacking the resulting bytes with the compressed branch of
`FPGAPacketPayload2Samples` returns exactly the original samples, in both
single-channel and MIMO mode, and the collected sample count equals the
original count. -/
theorem c2_compressed_pack_unpack_roundtrip
    (s : List (ℤ × ℤ)) (m : List ((ℤ × ℤ) × (ℤ × ℤ)))
    (hs : ∀ p ∈ s, fits12 p.1 ∧ fits12 p.2)
    (hm : ∀ p ∈ m, (fits12 p.1.1 ∧ fits12 p.1.2) ∧ (fits12 p.2.1 ∧ fits12 p.2.2)) :
    unpackMono (packMono s) = s ∧ (unpackMono (packMono s)).length = s.length ∧
    unpackMimo (packMimo m) = m ∧ (unpackMimo (packMimo m)).length = m.length := by
  have h1 := packMono_unpack_eq s hs
  have h2 := packMimo_unpack_eq m hm
  exact ⟨h1, by rw [h1], h2, by rw [h2]⟩

/-- Witness for C2 at a concrete input exercising extreme 12-bit values. -/
theorem c2_witness :
    unpackMono (packMono [((-2048 : ℤ), (2047 : ℤ)), (981, -1)]) =
      [((-2048 : ℤ), (2047 : ℤ)), (981, -1)] ∧
    unpackMimo (packMimo [(((1 : ℤ), (-1 : ℤ)), ((-2048 : ℤ), (2047 : ℤ)))]) =
      [(((1 : ℤ), (-1 : ℤ)), ((-2048 : ℤ), (2047 : ℤ)))] := by
  have h := c2_compressed_pack_unpack_roundtrip
    [((-2048 : ℤ), (2047 : ℤ)), (981, -1)]
    [(((1 : ℤ), (-1 : ℤ)), ((-2048 : ℤ), (2047 : ℤ)))]
    (by intro p hp; fin_cases hp <;> norm_num [fits12])
    (by intro p hp; fin_cases hp <;> norm_num [fits12])
  exact ⟨h.1, h.2.2.1⟩

theorem one_le_ratTrunc {x : ℚ} (h : 1 ≤ x) : 1 ≤ ratTrunc x := by
  rw [ratTrunc, if_neg (by linarith)]
  exact Int.le_floor.mpr (by exact_mod_cast h)

theorem ratTrunc_gt_imp {x : ℚ} {b : ℤ} (hb : 0 ≤ b) (h : b < ratTrunc x) :
    (b : ℚ) + 1 ≤ x := by
  rw [ratTrunc] at h
  split at h
  next hx =>
    have h1 : 0 ≤ ⌊-x⌋ := Int.floor_nonneg.mpr (by linarith)
    omega
  next hx =>
    have hbx : ((b + 1 : ℤ) : ℚ) ≤ (⌊x⌋ : ℚ) := by exact_mod_cast h
    have := Int.floor_le x
    push_cast at hbx
    linarith

theorem genMults_bounds {f : ℚ} :
    ∀ {fuel freq : ℕ}, ∀ x ∈ genMults f fuel freq,
      600000000 ≤ x ∧ x ≤ 1300000000 := by
  intro fuel
  induction fuel with
  | zero => intro freq x hx; simp [genMults] at hx
  | succ fuel ih =>
      intro freq x hx
      rw [genMults] at hx
      split at hx
      next hcond =>
        rcases List.mem_cons.mp hx with h | h
        · exact h ▸ hcond
        · exact ih _ h
      next => simp at hx

theorem insertSorted_mem {x y : ℕ} :
    ∀ {l : List ℕ}, x ∈ insertSorted y l ↔ x = y ∨ x ∈ l := by
  intro l
  induction l with
  | nil => simp [insertSorted]
  | cons z zs ih =>
      rw [insertSorted]
      by_cases h1 : y < z
      · rw [if_pos h1]
        simp [List.mem_cons]
      · rw [if_neg h1]
        by_cases h2 : y = z
        · rw [if_pos h2]
          subst h2
          simp only [List.mem_cons]
          tauto
        · rw [if_neg h2]
          simp only [List.mem_cons, ih]
          tauto

theorem foldl_insertSorted_mem {x : ℕ} :
    ∀ (l : List ℕ) (acc : List ℕ),
      (x ∈ l.foldl (fun a z => insertSorted z a) acc ↔ x ∈ acc ∨ x ∈ l) := by
  intro l
  induction l with
  | nil => simp
  | cons z zs ih =>
      intro acc
      simp only [List.foldl_cons, ih, insertSorted_mem, List.mem_cons]
      tauto

theorem vcoCandidates_bounds {clocks : List FPGA_PLL_clock} :
    ∀ x ∈ vcoCandidates clocks, 600000000 ≤ x ∧ x ≤ 1300000000 := by
  rw [vcoCandidates]
  suffices h : ∀ (l : List FPGA_PLL_clock) (acc : List ℕ),
      (∀ x ∈ acc, 600000000 ≤ x ∧ x ≤ 1300000000) →
      ∀ x ∈ l.foldl
        (fun acc c => (genMults c.outFrequency 200 (firstMult c.outFrequency)).foldl
          (fun a x => insertSorted x a) acc) acc,
        600000000 ≤ x ∧ x ≤ 1300000000 by
    exact h clocks [] (by simp)
  intro l
  induction l with
  | nil => intro acc hacc x hx; exact hacc x hx
  | cons c cs ih =>
      intro acc hacc x hx
      refine ih _ ?_ x hx
      intro y hy
      rcases (foldl_insertSorted_mem _ _).mp hy with h | h
      · exact hacc y h
      · exact genMults_bounds y h

theorem selStep_nm (input : ℚ) (st : PllSel) (c : ℕ) :
    ((selStep input st c).N, (selStep input st c).M) = nmSearch input c ∨
    ((selStep input st c).N, (selStep input st c).M) = (st.N, st.M) := by
  rw [selStep]
  split
  · left; rfl
  · right; rfl

theorem selFold_cases (input : ℚ) (bs : ℕ) (clocks : List FPGA_PLL_clock) :
    ∀ (l : List ℕ) (st : PllSel),
      (((l.foldl (fun st c => if scoreOf clocks c = bs then selStep input st c else st) st).N,
        (l.foldl (fun st c => if scoreOf clocks c = bs then selStep input st c else st) st).M)
        = (st.N, st.M)) ∨
      ∃ c ∈ l,
        ((l.foldl (fun st c => if scoreOf clocks c = bs then selStep input st c else st) st).N,
         (l.foldl (fun st c => if scoreOf clocks c = bs then selStep input st c else st) st).M)
          = nmSearch input c := by
  intro l
  induction l with
  | nil => intro st; left; rfl
  | cons c cs ih =>
      intro st
      simp only [List.foldl_cons]
      rcases ih (if scoreOf clocks c = bs then selStep input st c else st) with h | h
      · by_cases hsc : scoreOf clocks c = bs
        · rw [if_pos hsc] at h ⊢
          rcases selStep_nm input st c with h2 | h2
          · right
            exact ⟨c, List.mem_cons_self _ _, h.trans h2⟩
          · left
            exact h.trans h2
        · rw [if_neg hsc] at h ⊢
          left
          exact h
      · right
        obtain ⟨d, hd, heq⟩ := h
        exact ⟨d, List.mem_cons_of_mem _ hd, heq⟩


theorem nmLoop_m_at_exit {coef input : ℚ} {n : ℤ}
    (hcoef : 0 < coef) (hexit : (n : ℚ) * 5000000 ≥ input)
    (hcand : 600000000 ≤ coef * input) :
    1 ≤ ratTrunc (coef * n + 1 / 2) := by
  apply one_le_ratTrunc
  have h1 : coef * input ≤ coef * (n * 5000000) :=
    mul_le_mul_of_nonneg_left hexit hcoef.le
  nlinarith

theorem nmLoop_ge (input coef : ℚ)
    (hcoef : 0 < coef) (hcand : 600000000 ≤ coef * input) :
    ∀ (fuel : ℕ) (n : ℤ), 1 ≤ n → input / 5000000 + 1 ≤ (fuel : ℚ) + (n : ℚ) →
    1 ≤ (nmLoop input coef fuel n).1 ∧ 1 ≤ (nmLoop input coef fuel n).2 := by
  intro fuel
  induction fuel with
  | zero =>
      intro n hn hfuel
      refine ⟨hn, ?_⟩
      simp only [nmLoop]
      apply nmLoop_m_at_exit hcoef ?_ hcand
      have h0 : input / 5000000 ≤ (n : ℚ) := by push_cast at hfuel; linarith
      calc input = input / 5000000 * 5000000 := by ring
      _ ≤ (n : ℚ) * 5000000 := by linarith
  | succ fuel ih =>
      intro n hn hfuel
      simp only [nmLoop]
      by_cases hc : 5000000 < input / n
      · rw [if_pos hc]
        by_cases hm : 255 < ratTrunc (coef * (n + 1) + 1 / 2)
        · rw [if_pos hm]
          refine ⟨hn, ?_⟩
          apply one_le_ratTrunc
          have h256 : (255 : ℚ) + 1 ≤ coef * (n + 1) + 1 / 2 :=
            ratTrunc_gt_imp (by norm_num) hm
          have hn1 : ((n : ℚ) + 1) ≤ 2 * n := by
            have : (1 : ℚ) ≤ (n : ℚ) := by exact_mod_cast hn
            linarith
          nlinarith
        · rw [if_neg hm]
          apply ih (n + 1) (by omega)
          push_cast
          push_cast at hfuel
          linarith
      · rw [if_neg hc]
        refine ⟨hn, ?_⟩
        apply nmLoop_m_at_exit hcoef ?_ hcand
        have hnpos : (0 : ℚ) < (n : ℚ) := by exact_mod_cast show (0:ℤ) < n by omega
        have hle : input / (n : ℚ) ≤ 5000000 := not_lt.mp hc
        rw [div_le_iff₀ hnpos] at hle
        linarith

theorem pllOutputs_forall2 (input : ℚ) (M N : ℤ) (fvco : ℚ)
    (clocks : List FPGA_PLL_clock) (hfv : fvco = input * M / N) :
    List.Forall₂ (fun (c : FPGA_PLL_clock) (o : PllOutput) =>
      o.cdiv = ratTrunc (fvco / c.outFrequency + 1 / 2) ∧
      o.rd_actualFrequency = fvco / (o.cdiv : ℚ)) clocks
      (pllOutputs input M N fvco clocks) := by
  rw [pllOutputs, List.forall₂_map_right_iff]
  rw [List.forall₂_same]
  intro c hc
  constructor
  · rfl
  · dsimp only
    rw [hfv]
    congr 1
    push_cast
    have : ∀ z : ℤ, z / 2 + z % 2 + z / 2 = z := by omega
    exact_mod_cast congrArg (fun z : ℤ => ((z : ℚ))) (this _)

/-- C1 (amended): whenever the divider computation of `SetPllFrequency`
succeeds with a defined (non-NaN) `Fvco` for an input frequency of at least
5 MHz, the candidate set was nonempty, the selected dividers satisfy N ≥ 1
and M ≥ 1, the final VCO frequency `Fvco = inputFreq*M/N` lies in
[600e6, 1300e6], and every output's reported `rd_actualFrequency` equals
`Fvco / C` for its integer divider `C = round(Fvco/outFrequency)`.  The
original claim's upper bounds N ≤ 255 and M ≤ 255 are not enforced by the
code, and when no output frequency has a multiple in the VCO window the
candidate set is empty, `Fvco = inputFreq*0/0` is NaN, the line-284 range
check passes vacuously, and the call succeeds with N = M = 0 and undefined
per-output values (both shown by the counterexample); nothing else
changed. -/
theorem c1_pll_success_dividers (input : ℚ) (clocks : List FPGA_PLL_clock)
    (N M : ℤ) (fvco : ℚ) (outs : List PllOutput)
    (hin : 5000000 ≤ input)
    (hok : setPllFreqDividers input clocks =
      Except.ok (N, M, some fvco, some outs)) :
    vcoCandidates clocks ≠ [] ∧
    1 ≤ N ∧ 1 ≤ M ∧ 600000000 ≤ fvco ∧ fvco ≤ 1300000000 ∧
    fvco = input * M / N ∧
    List.Forall₂ (fun (c : FPGA_PLL_clock) (o : PllOutput) =>
      o.cdiv = ratTrunc (fvco / c.outFrequency + 1 / 2) ∧
      o.rd_actualFrequency = fvco / (o.cdiv : ℚ)) clocks outs := by
  have hpos : (0 : ℚ) < input := lt_of_lt_of_le (by norm_num) hin
  rw [setPllFreqDividers] at hok
  set cands := vcoCandidates clocks with hcands
  set bs := bestScore clocks cands with hbs
  set sel := cands.foldl
    (fun st c => if scoreOf clocks c = bs then selStep input st c else st)
    ⟨0, 0, 0, 1000000000⟩ with hsel
  by_cases hnan : sel.N = 0 ∧ input * sel.M = 0
  · rw [if_pos hnan] at hok
    exact absurd hok (by simp)
  · rw [if_neg hnan] at hok
    by_cases hrange : input * sel.M / sel.N < 600000000 ∨
        1300000000 < input * sel.M / sel.N
    · rw [if_pos hrange] at hok
      exact absurd hok (by simp)
    · rw [if_neg hrange] at hok
      push_neg at hrange
      simp only [Except.ok.injEq, Prod.mk.injEq, Option.some.injEq] at hok
      obtain ⟨hN, hM, hfv, houts⟩ := hok
      have hNM : cands ≠ [] ∧ 1 ≤ sel.N ∧ 1 ≤ sel.M := by
        rcases selFold_cases input bs clocks cands ⟨0, 0, 0, 1000000000⟩ with h | h
        · exfalso
          rw [← hsel] at h
          apply hnan
          refine ⟨congrArg Prod.fst h, ?_⟩
          rw [show sel.M = 0 from congrArg Prod.snd h]
          ring
        · obtain ⟨cand, hcmem, heq⟩ := h
          rw [← hsel] at heq
          have hcb := vcoCandidates_bounds cand hcmem
          have hcandpos : (0 : ℚ) < (cand : ℚ) := by
            have : (600000000 : ℕ) ≤ cand := hcb.1
            exact_mod_cast lt_of_lt_of_le (by norm_num) this
          have hcoef : 0 < (cand : ℚ) / input := div_pos hcandpos hpos
          have hcd : 600000000 ≤ (cand : ℚ) / input * input := by
            rw [div_mul_cancel₀ _ (ne_of_gt hpos)]
            exact_mod_cast hcb.1
          have hfuel : input / 5000000 + 1 ≤ ((nmFuel input : ℕ) : ℚ) + (1 : ℚ) := by
            rw [nmFuel]
            set x := input / 5000000 with hx
            have hx1 : (1 : ℚ) ≤ x := by
              rw [hx, le_div_iff₀ (by norm_num)]
              linarith
            have hfloor0 : (0 : ℤ) ≤ ⌊x⌋ := Int.le_floor.mpr (by push_cast; linarith)
            have hfl : ((ratFloorN x : ℕ) : ℚ) = ((⌊x⌋ : ℤ) : ℚ) := by
              rw [ratFloorN]
              exact_mod_cast Int.toNat_of_nonneg hfloor0
            push_cast
            rw [show ((ratFloorN x : ℕ) : ℚ) + 2 + 1 = ((ratFloorN x : ℕ) : ℚ) + 3 from by ring,
              hfl]
            have := Int.lt_floor_add_one x
            push_cast at this ⊢
            linarith
          have := nmLoop_ge input ((cand : ℚ) / input) hcoef hcd (nmFuel input) 1
            le_rfl hfuel
          rw [show nmLoop input ((cand : ℚ) / input) (nmFuel input) 1
              = nmSearch input cand from rfl, ← heq] at this
          exact ⟨List.ne_nil_of_mem hcmem, this⟩
      refine ⟨hNM.1, hN ▸ hNM.2.1, hM ▸ hNM.2.2, ?_, ?_, ?_, ?_⟩
      · rw [← hfv]; exact hrange.1
      · rw [← hfv]; exact hrange.2
      · rw [← hfv, ← hN, ← hM]
      · rw [← houts, ← hfv]
        exact pllOutputs_forall2 input sel.M sel.N _ clocks rfl

set_option maxRecDepth 8000 in
set_option maxHeartbeats 1000000 in
theorem setPll_eval_650 :
    setPllFreqDividers 5000000 [{ outFrequency := 650000000 }] =
      Except.ok (1, 260, some 1300000000, some [⟨2, 650000000⟩]) := by
  have hf : firstMult 650000000 = 650000000 := by
    norm_num [firstMult, ratFloorN]
    rfl
  have hg : genMults 650000000 200 650000000 = [650000000, 1300000000] := by
    norm_num [genMults, ratFloorN]
    rfl
  have hv : vcoCandidates [{ outFrequency := 650000000 }] = [650000000, 1300000000] := by
    simp [vcoCandidates, hf, hg, insertSorted]
  have hs1 : scoreOf [{ outFrequency := 650000000 }] 650000000 = 1 := by
    norm_num [scoreOf, ratFloorN, List.countP_cons, List.countP_nil]
    rfl
  have hs2 : scoreOf [{ outFrequency := 650000000 }] 1300000000 = 1 := by
    norm_num [scoreOf, ratFloorN, List.countP_cons, List.countP_nil]
    rfl
  have hb : bestScore [{ outFrequency := 650000000 }] [650000000, 1300000000] = 1 := by
    simp [bestScore, hs1, hs2]
  have hn1 : nmSearch 5000000 650000000 = (1, 130) := by
    norm_num [nmSearch, nmFuel, ratFloorN, nmLoop, ratTrunc]
  have hn2 : nmSearch 5000000 1300000000 = (1, 260) := by
    norm_num [nmSearch, nmFuel, ratFloorN, nmLoop, ratTrunc]
  rw [setPllFreqDividers, hv, hb]
  norm_num [hs1, hs2, selStep, hn1, hn2, ratAbs, pllOutputs, ratTrunc]

set_option maxRecDepth 8000 in
set_option maxHeartbeats 1000000 in
theorem setPll_eval_1400 :
    setPllFreqDividers 10000000 [{ outFrequency := 1400000000 }] =
      Except.ok (0, 0, none, none) := by
  have hf : firstMult 1400000000 = 1400000000 := by
    norm_num [firstMult, ratFloorN]
    rfl
  have hg : genMults 1400000000 200 1400000000 = [] := by
    rw [show (200 : ℕ) = 199 + 1 from rfl, genMults]
    norm_num
  have hv : vcoCandidates [{ outFrequency := 1400000000 }] = [] := by
    simp [vcoCandidates, hf, hg]
  rw [setPllFreqDividers, hv]
  norm_num [bestScore]

/-- C1 counterexample, two refutations of the original claim with a
connected device and all frequencies at or above the 5 MHz floor.  (a) With
`inputFreq = 5 MHz` and a single non-bypassed 650 MHz output the divider
search succeeds with M = 260 ∉ [1, 255]: the (N, M) loop never checks the
initial `Mtemp = int(coef + 0.5)` against 255 when the `while` condition
`inputFreq/Ntemp > 5e6` fails immediately at `Ntemp = 1`.  (b) With
`inputFreq = 10 MHz` and a single non-bypassed 1.4 GHz output no multiple
falls in [600e6, 1300e6], the candidate set is empty, the selection loop
never assigns, `Fvco = inputFreq*0/0` is NaN, the line-284 range check is
false on NaN, and the call proceeds to success with N = M = 0 ∉ [1, 255]
and no defined Fvco. -/
theorem c1_counterexample :
    (setPllFreqDividers 5000000 [{ outFrequency := 650000000 }] =
      Except.ok (1, 260, some 1300000000, some [⟨2, 650000000⟩]) ∧
     ¬((260 : ℤ) ≤ 255)) ∧
    (setPllFreqDividers 10000000 [{ outFrequency := 1400000000 }] =
      Except.ok (0, 0, none, none) ∧
     ¬((1 : ℤ) ≤ 0)) := by
  exact ⟨⟨setPll_eval_650, by norm_num⟩, ⟨setPll_eval_1400, by norm_num⟩⟩

/-- Witness for the amended C1 at the concrete defined-success input used
above. -/
theorem c1_witness :
    vcoCandidates [{ outFrequency := 650000000 }] ≠ [] ∧
    (1 : ℤ) ≤ 1 ∧ (1 : ℤ) ≤ 260 ∧ (600000000 : ℚ) ≤ 1300000000 ∧
    (1300000000 : ℚ) ≤ 1300000000 ∧
    (1300000000 : ℚ) = 5000000 * ((260 : ℤ) : ℚ) / ((1 : ℤ) : ℚ) ∧
    List.Forall₂ (fun (c : FPGA_PLL_clock) (o : PllOutput) =>
      o.cdiv = ratTrunc ((1300000000 : ℚ) / c.outFrequency + 1 / 2) ∧
      o.rd_actualFrequency = (1300000000 : ℚ) / (o.cdiv : ℚ))
      [{ outFrequency := 650000000 }] [⟨2, 650000000⟩] :=
  c1_pll_success_dividers 5000000 [{ outFrequency := 650000000 }]
    1 260 1300000000 [⟨2, 650000000⟩] (by norm_num) setPll_eval_650

theorem ratFloorN_natCast (n : ℕ) : ratFloorN ((n : ℕ) : ℚ) = n := by
  rw [ratFloorN, Int.floor_natCast, Int.toNat_natCast]

theorem ratFloorN_eq_natFloor (x : ℚ) : ratFloorN x = ⌊x⌋₊ := by
  rw [ratFloorN, Int.floor_toNat]

theorem firstMult_nat {m : ℕ} (hm : 0 < m) :
    firstMult (m : ℚ) = (600000000 / m + 1) * m := by
  rw [firstMult, ratFloorN_eq_natFloor, ratFloorN_eq_natFloor,
    show (600000000 : ℚ) = ((600000000 : ℕ) : ℚ) from by norm_num,
    Nat.floor_div_eq_div]
  rw [show ((m : ℚ) * ((600000000 / m : ℕ) + 1)) = (((600000000 / m + 1) * m : ℕ) : ℚ) from by
    push_cast; ring]
  exact Nat.floor_natCast _

theorem genMults_nat_char {m : ℕ} (hm : 5000000 ≤ m) :
    ∀ (fuel k : ℕ), 600000000 < k * m → 1300000000 < k * m + fuel * m →
    ∀ x, x ∈ genMults (m : ℚ) fuel (k * m) ↔
      ∃ j : ℕ, k ≤ j ∧ x = j * m ∧ x ≤ 1300000000 := by
  intro fuel
  induction fuel with
  | zero =>
      intro k hk hfuel x
      simp only [genMults, List.not_mem_nil, false_iff]
      rintro ⟨j, hj, rfl, hle⟩
      have : k * m ≤ j * m := Nat.mul_le_mul_right m hj
      omega
  | succ fuel ih =>
      intro k hk hfuel x
      rw [genMults]
      have hstep : ratFloorN (((k * m : ℕ) : ℚ) + (m : ℚ)) = (k + 1) * m := by
        rw [show (((k * m : ℕ) : ℚ) + (m : ℚ)) = (((k + 1) * m : ℕ) : ℚ) from by
          push_cast; ring]
        exact ratFloorN_natCast _
      by_cases hin : k * m ≤ 1300000000
      · rw [if_pos ⟨by omega, hin⟩, hstep, List.mem_cons]
        have hm0 : 0 < m := by omega
        rw [ih (k + 1) (by nlinarith) (by ring_nf; ring_nf at hfuel; omega)]
        constructor
        · rintro (rfl | ⟨j, hj, rfl, hle⟩)
          · exact ⟨k, le_rfl, rfl, hin⟩
          · exact ⟨j, by omega, rfl, hle⟩
        · rintro ⟨j, hj, rfl, hle⟩
          rcases Nat.eq_or_lt_of_le hj with rfl | hlt
          · exact Or.inl rfl
          · exact Or.inr ⟨j, by omega, rfl, hle⟩
      · rw [if_neg (by omega)]
        simp only [List.not_mem_nil, false_iff]
        rintro ⟨j, hj, rfl, hle⟩
        have : k * m ≤ j * m := Nat.mul_le_mul_right m hj
        omega

theorem genMults_clock_char {m : ℕ} (hm : 5000000 ≤ m) (x : ℕ) :
    x ∈ genMults (m : ℚ) 200 (firstMult (m : ℚ)) ↔
      ∃ k : ℕ, x = k * m ∧ 600000000 < x ∧ x ≤ 1300000000 := by
  rw [firstMult_nat (by omega)]
  set k0 := 600000000 / m + 1 with hk0def
  have hk0 : 600000000 < k0 * m := by
    have h2 : m * (600000000 / m) + 600000000 % m = 600000000 := Nat.div_add_mod _ _
    have h1 : 600000000 % m < m := Nat.mod_lt _ (by omega)
    calc 600000000 = m * (600000000 / m) + 600000000 % m := h2.symm
    _ < m * (600000000 / m) + m := by omega
    _ = k0 * m := by rw [hk0def]; ring
  have hfuel : 1300000000 < k0 * m + 200 * m := by
    have h3 : (1000000000 : ℕ) ≤ 200 * m := by omega
    omega
  rw [genMults_nat_char hm 200 k0 hk0 hfuel x]
  constructor
  · rintro ⟨j, hj, rfl, hle⟩
    exact ⟨j, rfl, lt_of_lt_of_le hk0 (Nat.mul_le_mul_right m hj), hle⟩
  · rintro ⟨k, rfl, hgt, hle⟩
    refine ⟨k, ?_, rfl, hle⟩
    by_contra hlt
    push_neg at hlt
    have hk : k ≤ 600000000 / m := by omega
    have : k * m ≤ 600000000 / m * m := Nat.mul_le_mul_right m hk
    have hdm : 600000000 / m * m ≤ 600000000 := Nat.div_mul_le_self _ _
    omega

theorem vcoCandidates_mem_iff (clocks : List FPGA_PLL_clock) (x : ℕ) :
    x ∈ vcoCandidates clocks ↔
      ∃ c ∈ clocks, x ∈ genMults c.outFrequency 200 (firstMult c.outFrequency) := by
  rw [vcoCandidates]
  suffices h : ∀ (l : List FPGA_PLL_clock) (acc : List ℕ),
      (x ∈ l.foldl
        (fun acc c => (genMults c.outFrequency 200 (firstMult c.outFrequency)).foldl
          (fun a x => insertSorted x a) acc) acc ↔
        x ∈ acc ∨ ∃ c ∈ l, x ∈ genMults c.outFrequency 200 (firstMult c.outFrequency)) by
    rw [h clocks []]
    simp
  intro l
  induction l with
  | nil => simp
  | cons c cs ih =>
      intro acc
      rw [List.foldl_cons, ih, foldl_insertSorted_mem]
      constructor
      · rintro ((h | h) | ⟨d, hd, hx⟩)
        · exact Or.inl h
        · exact Or.inr ⟨c, List.mem_cons_self _ _, h⟩
        · exact Or.inr ⟨d, List.mem_cons_of_mem _ hd, hx⟩
      · rintro (h | ⟨d, hd, hx⟩)
        · exact Or.inl (Or.inl h)
        · rcases List.mem_cons.mp hd with rfl | hd2
          · exact Or.inl (Or.inr hx)
          · exact Or.inr ⟨d, hd2, hx⟩

theorem insertSorted_pairwise {y : ℕ} :
    ∀ {l : List ℕ}, List.Pairwise (· < ·) l →
      List.Pairwise (· < ·) (insertSorted y l) := by
  intro l
  induction l with
  | nil => intro _; simp [insertSorted]
  | cons z zs ih =>
      intro hp
      rw [List.pairwise_cons] at hp
      rw [insertSorted]
      by_cases h1 : y < z
      · rw [if_pos h1, List.pairwise_cons]
        refine ⟨?_, List.pairwise_cons.mpr hp⟩
        intro a ha
        rcases List.mem_cons.mp ha with rfl | ha
        · exact h1
        · exact h1.trans (hp.1 a ha)
      · rw [if_neg h1]
        by_cases h2 : y = z
        · rw [if_pos h2, List.pairwise_cons]
          exact hp
        · rw [if_neg h2, List.pairwise_cons]
          refine ⟨?_, ih hp.2⟩
          intro a ha
          rcases insertSorted_mem.mp ha with rfl | ha
          · omega
          · exact hp.1 a ha

theorem vcoCandidates_pairwise (clocks : List FPGA_PLL_clock) :
    List.Pairwise (· < ·) (vcoCandidates clocks) := by
  rw [vcoCandidates]
  suffices h : ∀ (l : List FPGA_PLL_clock) (acc : List ℕ),
      List.Pairwise (· < ·) acc →
      List.Pairwise (· < ·) (l.foldl
        (fun acc c => (genMults c.outFrequency 200 (firstMult c.outFrequency)).foldl
          (fun a x => insertSorted x a) acc) acc) by
    exact h clocks [] (by simp)
  intro l
  induction l with
  | nil => intro acc hacc; exact hacc
  | cons c cs ih =>
      intro acc hacc
      refine ih _ ?_
      suffices hgen : ∀ (g : List ℕ) (a0 : List ℕ), List.Pairwise (· < ·) a0 →
          List.Pairwise (· < ·) (g.foldl (fun a x => insertSorted x a) a0) by
        exact hgen _ acc hacc
      intro g
      induction g with
      | nil => intro a0 h0; exact h0
      | cons w ws ihw =>
          intro a0 h0
          exact ihw _ (insertSorted_pairwise h0)

/-- C4 (amended): the candidate VCO set is the deduplicated (strictly
ascending) union, over ALL outputs of the call — bypassed ones included — of
the integer multiples of the output frequency that are strictly greater than
600e6 and at most 1300e6 (the generation starts at `int(600e6/f)+1` multiples,
so a multiple equal to 600e6 itself is excluded, and the loop never skips
bypassed outputs).  Stated for integer-valued output frequencies of at least
5 MHz, where the unsigned-long flooring of the C++ is exact. -/
theorem c4_vco_candidate_set (clocks : List FPGA_PLL_clock)
    (h : ∀ c ∈ clocks, ∃ m : ℕ, c.outFrequency = (m : ℚ) ∧ 5000000 ≤ m) :
    List.Pairwise (· < ·) (vcoCandidates clocks) ∧
    ∀ x : ℕ, x ∈ vcoCandidates clocks ↔
      ∃ c ∈ clocks, ∃ k : ℕ, (x : ℚ) = k * c.outFrequency ∧
        600000000 < x ∧ x ≤ 1300000000 := by
  refine ⟨vcoCandidates_pairwise clocks, ?_⟩
  intro x
  rw [vcoCandidates_mem_iff]
  constructor
  · rintro ⟨c, hc, hx⟩
    obtain ⟨m, hcm, hm⟩ := h c hc
    rw [hcm] at hx
    obtain ⟨k, rfl, hgt, hle⟩ := (genMults_clock_char hm x).mp hx
    exact ⟨c, hc, k, by rw [hcm]; push_cast; ring, hgt, hle⟩
  · rintro ⟨c, hc, k, hxq, hgt, hle⟩
    obtain ⟨m, hcm, hm⟩ := h c hc
    rw [hcm] at hxq
    have hxm : x = k * m := by exact_mod_cast hxq
    exact ⟨c, hc, by
      rw [hcm]
      exact (genMults_clock_char hm x).mpr ⟨k, hxm, hgt, hle⟩⟩

set_option maxRecDepth 8000 in
set_option maxHeartbeats 1000000 in
theorem vco_eval_300 :
    vcoCandidates [{ outFrequency := 300000000 }] = [900000000, 1200000000] ∧
    vcoCandidates [{ outFrequency := 300000000, bypass := true }] =
      [900000000, 1200000000] := by
  have hf : firstMult 300000000 = 900000000 := by
    norm_num [firstMult, ratFloorN, show Int.toNat 2 = 2 from rfl]
    rfl
  have hg : genMults 300000000 200 900000000 = [900000000, 1200000000] := by
    norm_num [genMults, ratFloorN]
    rfl
  constructor
  · simp [vcoCandidates, hf, hg, insertSorted]
  · simp [vcoCandidates, hf, hg, insertSorted]

/-- C4 counterexample: for a single non-bypassed 300 MHz output, 600e6 is an
integer multiple of 300e6 inside [600e6, 1300e6] — so the claimed set contains
it — but the code's candidate set is {900e6, 1200e6}; and a bypassed 300 MHz
output, which the claim says contributes no candidates, still contributes
{900e6, 1200e6}. -/
theorem c4_counterexample :
    specVcoMultiple [{ outFrequency := 300000000 }] 600000000 ∧
    600000000 ∉ vcoCandidates [{ outFrequency := 300000000 }] ∧
    vcoCandidates [{ outFrequency := 300000000, bypass := true }] =
      [900000000, 1200000000] := by
  refine ⟨⟨{ outFrequency := 300000000 }, List.mem_cons_self _ _, by decide, 2, by norm_num, by norm_num, by norm_num⟩, ?_, vco_eval_300.2⟩
  rw [vco_eval_300.1]
  decide

/-- Witness for the amended C4 at a single 30.72 MHz output: the 20th
multiple 614.4 MHz is a candidate, and the candidate list is strictly
ascending. -/
theorem c4_witness :
    List.Pairwise (· < ·) (vcoCandidates [{ outFrequency := 30720000 }]) ∧
    614400000 ∈ vcoCandidates [{ outFrequency := 30720000 }] := by
  have h := c4_vco_candidate_set [{ outFrequency := 30720000 }]
    (by
      intro c hc
      rcases List.mem_cons.mp hc with rfl | hfalse
      · exact ⟨30720000, by norm_num, by norm_num⟩
      · simp at hfalse)
  refine ⟨h.1, (h.2 614400000).mpr ?_⟩
  exact ⟨{ outFrequency := 30720000 }, List.mem_cons_self _ _, 20,
    by norm_num, by norm_num, by norm_num⟩

/-- C3 (amended): the frequency checks reject before any register write —
`inputFreq` below 5 MHz, or any non-bypassed output below 5 MHz, returns
ERANGE with no hardware operation — but `pllIndex > 15` is only passed to
`ReportError` with the result discarded (line 155 has no `return`), so an
out-of-range PLL index with valid frequencies is logged and execution
proceeds to the register write of 0x0005. -/
theorem c3_validation (pllIndex : ℕ) (inputFreq : ℚ)
    (clocks : List FPGA_PLL_clock) (c : Conn) :
    (inputFreq < 5000000 →
      setPllEarly true pllIndex inputFreq clocks c =
        ⟨if 15 < pllIndex then [errRange] else [], [], some errRange⟩) ∧
    (5000000 ≤ inputFreq →
      (clocks.find? fun cl =>
        decide (cl.outFrequency < 5000000) && !cl.bypass).isSome →
      setPllEarly true pllIndex inputFreq clocks c =
        ⟨if 15 < pllIndex then [errRange] else [], [], some errRange⟩) ∧
    (15 < pllIndex → 5000000 ≤ inputFreq →
      (clocks.find? fun cl =>
        decide (cl.outFrequency < 5000000) && !cl.bypass) = none →
      setPllEarly true pllIndex inputFreq clocks c =
        ⟨[errRange],
         [Ev.readReg 5, Ev.writeReg 5
           (c.readVal 5 - c.readVal 5 / 2 ^ pllIndex % 2 * 2 ^ pllIndex)],
         none⟩) := by
  refine ⟨?_, ?_, ?_⟩
  · intro hlow
    rw [setPllEarly]
    simp [hlow]
  · intro hge hfind
    rw [setPllEarly]
    simp [not_lt.mpr hge, hfind]
  · intro hidx hge hfind
    rw [setPllEarly]
    simp [not_lt.mpr hge, hfind, hidx]

/-- C3 counterexample: pllIndex = 16 with a connected device and valid
frequencies (input 10 MHz, one 10 MHz output) does NOT return an error:
the range error is only logged, `earlyReturn` is `none`, and the register
write of 0x0005 is performed. -/
theorem c3_counterexample :
    (setPllEarly true 16 10000000 [{ outFrequency := 10000000 }]
      ⟨fun _ => 0, fun _ => 0⟩).earlyReturn = none ∧
    (setPllEarly true 16 10000000 [{ outFrequency := 10000000 }]
      ⟨fun _ => 0, fun _ => 0⟩).events = [Ev.readReg 5, Ev.writeReg 5 0] := by
  constructor
  · norm_num [setPllEarly, List.find?]
  · norm_num [setPllEarly, List.find?]

/-- Witness for the amended C3, exercising the claim's two instances:
pllIndex = 16 (not rejected, write performed) and inputFreq = 1 MHz
(rejected with no hardware operation). -/
theorem c3_witness :
    ((1000000 : ℚ) < 5000000 →
      setPllEarly true 16 1000000 [{ outFrequency := 10000000 }]
        ⟨fun _ => 0, fun _ => 0⟩ =
        ⟨if 15 < 16 then [errRange] else [], [], some errRange⟩) ∧
    ((5000000 : ℚ) ≤ 1000000 →
      (([{ outFrequency := 10000000 }] : List FPGA_PLL_clock).find? fun cl =>
        decide (cl.outFrequency < 5000000) && !cl.bypass).isSome →
      setPllEarly true 16 1000000 [{ outFrequency := 10000000 }]
        ⟨fun _ => 0, fun _ => 0⟩ =
        ⟨if 15 < 16 then [errRange] else [], [], some errRange⟩) ∧
    (15 < 16 → (5000000 : ℚ) ≤ 1000000 →
      (([{ outFrequency := 10000000 }] : List FPGA_PLL_clock).find? fun cl =>
        decide (cl.outFrequency < 5000000) && !cl.bypass) = none →
      setPllEarly true 16 1000000 [{ outFrequency := 10000000 }]
        ⟨fun _ => 0, fun _ => 0⟩ =
        ⟨[errRange],
         [Ev.readReg 5, Ev.writeReg 5 (0 - 0 / 2 ^ 16 % 2 * 2 ^ 16)], none⟩) :=
  c3_validation 16 1000000 [{ outFrequency := 10000000 }] ⟨fun _ => 0, fun _ => 0⟩

/-- C10: inside ResetTimestamp a failed transport read of register 0x0009
makes the function return 0 — the success code — without performing the
clear/set/clear write sequence, while an all-successful run also returns 0:
at the public interface the two are indistinguishable by return value. -/
theorem c10_reset_read_failure (c cg : Conn)
    (h10 : c.readStatus 10 = 0) (hrx : c.readVal 10 % 2 = 0)
    (h9 : c.readStatus 9 ≠ 0)
    (g10 : cg.readStatus 10 = 0) (grx : cg.readVal 10 % 2 = 0)
    (g9 : cg.readStatus 9 = 0) :
    resetTimestamp c = (0, []) ∧ (resetTimestamp cg).1 = 0 := by
  constructor
  · rw [resetTimestamp, if_neg (by rw [h10]; simp),
      if_neg (by rw [hrx]; simp), if_pos h9]
  · rw [resetTimestamp, if_neg (by rw [g10]; simp),
      if_neg (by rw [grx]; simp), if_neg (by rw [g9]; simp)]

/-- Witness for C10: a connection whose 0x0009 read fails against one whose
reads all succeed. -/
theorem c10_witness :
    resetTimestamp ⟨fun a => if a = 9 then 1 else 0, fun _ => 0⟩ = (0, []) ∧
    (resetTimestamp ⟨fun _ => 0, fun _ => 0⟩).1 = 0 :=
  c10_reset_read_failure _ _ (by norm_num) (by norm_num) (by norm_num)
    (by norm_num) (by norm_num) (by norm_num)

/-- C9: DetectRefClk snaps the scaled estimate onto the ascending table
{30.72, 38.4, 40, 52} MHz by the first-stop scan; an estimate of exactly
40 MHz yields the 40 MHz entry, an estimate of 36 MHz yields 38.4 MHz (the
first-stop rule reaches index 1, whose deviation 2.4 MHz is smaller than
30.72 MHz's 5.28 MHz, and stops before 40 MHz), and any estimate within the
initial 100 MHz guard of the first entry is snapped to some table value
rather than returned raw. -/
theorem c9_ref_clk_snap :
    detectRefClkSnap 40000000 = 40000000 ∧
    detectRefClkSnap 36000000 = 38400000 ∧
    ∀ count : ℚ, ratAbs (count - 30720000) ≤ 100000000 →
      detectRefClkSnap count ∈ clkTbl := by
  refine ⟨?_, ?_, ?_⟩
  · norm_num [detectRefClkSnap, refScanLoop, clkTbl, ratAbs]
  · norm_num [detectRefClkSnap, refScanLoop, clkTbl, ratAbs]
  · intro count h
    rw [detectRefClkSnap]
    have g0 : clkTbl.getD 0 0 = 30720000 := rfl
    rw [show (5 : ℕ) = 4 + 1 from rfl, refScanLoop, g0]
    rw [if_pos (by norm_num), if_neg (not_lt.mpr h)]
    rw [show (4 : ℕ) = 3 + 1 from rfl, refScanLoop]
    rw [if_pos (by norm_num)]
    split
    · simp [clkTbl]
    · rw [show (3 : ℕ) = 2 + 1 from rfl, refScanLoop]
      rw [if_pos (by norm_num)]
      split
      · simp [clkTbl]
      · rw [show (2 : ℕ) = 1 + 1 from rfl, refScanLoop]
        rw [if_pos (by norm_num)]
        split
        · simp [clkTbl]
        · rw [show (1 : ℕ) = 0 + 1 from rfl, refScanLoop]
          rw [if_neg (by norm_num)]
          simp [clkTbl]

/-- Witness for C9 at the two concrete estimates of the claim. -/
theorem c9_witness :
    detectRefClkSnap 36000000 ∈ clkTbl ∧ detectRefClkSnap 40000000 = 40000000 :=
  ⟨c9_ref_clk_snap.2.2 36000000 (by norm_num [ratAbs]), c9_ref_clk_snap.1⟩

/-- C7: in fixed-phase mode the phase resolution per step is
`Fstep_deg = 45/C` degrees — the output-frequency factors cancel — and the
step count passed to SetPllClock is the truncation towards zero of
`0.49 + phaseShift_deg/(45/C)`, i.e. `phaseShift_deg·C/45` rounded with the
fixed positive additive bias 0.49, for positive and negative shifts alike. -/
theorem c7_fixed_phase_steps (inputFreq : ℚ) (cdiv : ℤ)
    (hin : 0 < inputFreq) (hC : 1 ≤ cdiv) :
    fstepDeg inputFreq cdiv = 45 / cdiv ∧
    ∀ phase : ℚ, nStepsFixed inputFreq cdiv phase =
      ratTrunc (49 / 100 + phase * cdiv / 45) := by
  have hc0 : ((cdiv : ℤ) : ℚ) ≠ 0 := by
    have : (1 : ℚ) ≤ ((cdiv : ℤ) : ℚ) := by exact_mod_cast hC
    linarith
  have h1 : fstepDeg inputFreq cdiv = 45 / cdiv := by
    rw [fstepDeg]
    field_simp
    ring
  refine ⟨h1, fun phase => ?_⟩
  rw [nStepsFixed, h1]
  congr 1
  rw [div_div_eq_mul_div]
  norm_num

/-- Witness for C7 at a 30.72 MHz input, divider 2 and a negative shift. -/
theorem c7_witness :
    fstepDeg 30720000 2 = 45 / 2 ∧
    nStepsFixed 30720000 2 (-90) = ratTrunc (49 / 100 + -90 * 2 / 45) := by
  have h := c7_fixed_phase_steps 30720000 2 (by norm_num) (by norm_num)
  exact ⟨h.1, h.2 (-90)⟩

theorem pllCfgPoll_timeout_aux (status : ℕ → ℕ) (t : ℕ → ℚ)
    (Hlo : ∀ k : ℕ, 10 * (k : ℚ) < t k)
    (Hhi : ∀ k : ℕ, t k ≤ 10 * (k : ℚ) + 15)
    (Hne : ∀ k : ℕ, t k ≠ 3000)
    (Hz : ∀ k, status k = 0) :
    ∀ (fuel k : ℕ), 300 - k < fuel →
      pllCfgPoll status t fuel k = PollResult.timeout := by
  intro fuel
  induction fuel with
  | zero =>
      intro k hfk
      omega
  | succ fuel ih =>
      intro k hfk
      rw [pllCfgPoll]
      simp only [Hz]
      by_cases hc : t k < 3000
      · rw [if_pos (by norm_num [hc])]
        apply ih (k + 1)
        have := Hlo k
        have hk300 : 10 * (k : ℚ) < 3000 := by linarith
        have : (k : ℚ) < 300 := by linarith
        have hkn : k < 300 := by exact_mod_cast this
        omega
      · rw [if_neg (by norm_num [hc])]
        have h1 : (3000 : ℚ) ≤ t k := not_lt.mp hc
        rw [if_pos (lt_of_le_of_ne h1 (Ne.symm (Hne k)))]

/-- C5 (amended): the post-configuration status polling of SetPllFrequency
runs only when the board is an LMS_DEV_LIMESDR_QPCIE; for that board it
returns success when the done bit (bit 0) is set with error code (bits 7+)
zero, HardwareError when a nonzero error code appears first, and Timeout
once more than 3 s elapse without the done bit; for every other board the
loop body never executes and the stage always proceeds as success,
regardless of the status register.  The timing hypotheses say the
elapsed-time measurements advance by the 10 ms sleep per iteration, stay
within 15 ms of it, and never land exactly on the 3000 ms boundary. -/
theorem c5_pllcfg_poll (status : ℕ → ℕ) (t : ℕ → ℚ)
    (Hlo : ∀ k : ℕ, 10 * (k : ℚ) < t k)
    (Hhi : ∀ k : ℕ, t k ≤ 10 * (k : ℚ) + 15)
    (Hne : ∀ k : ℕ, t k ≠ 3000) :
    pllCfgPollStage false status t = PollResult.success ∧
    (status 0 = 1 → pllCfgPollStage true status t = PollResult.success) ∧
    (status 0 = 128 → pllCfgPollStage true status t = PollResult.hwerror) ∧
    ((∀ k, status k = 0) → pllCfgPollStage true status t = PollResult.timeout) := by
  have ht0 : ¬(3000 : ℚ) < t 0 := by
    have := Hhi 0
    push_cast at this
    intro hcon
    linarith
  refine ⟨rfl, ?_, ?_, ?_⟩
  · intro h1
    rw [pllCfgPollStage, if_pos rfl, show (302 : ℕ) = 301 + 1 from rfl, pllCfgPoll]
    simp only [h1]
    rw [if_neg (by norm_num), if_neg ht0, if_neg (by norm_num)]
  · intro h1
    rw [pllCfgPollStage, if_pos rfl, show (302 : ℕ) = 301 + 1 from rfl, pllCfgPoll]
    simp only [h1]
    rw [if_neg (by norm_num), if_neg ht0, if_pos (by norm_num)]
  · intro hz
    rw [pllCfgPollStage, if_pos rfl]
    exact pllCfgPoll_timeout_aux status t Hlo Hhi Hne hz 302 0 (by norm_num)

/-- C5 counterexample: for a board that is not an LMS_DEV_LIMESDR_QPCIE the
code never reads the status register — with a status register that never
sets the done bit the stage still proceeds as success, where the claim
("for every device") requires Timeout. -/
theorem c5_counterexample :
    pllCfgPollStage false (fun _ => 0) (fun k => 10 * ((k : ℚ) + 1) + 1) =
      PollResult.success ∧
    pllCfgPollStage false (fun _ => 0) (fun k => 10 * ((k : ℚ) + 1) + 1) ≠
      PollResult.timeout := by
  exact ⟨rfl, by intro h; exact absurd h (by simp [pllCfgPollStage])⟩

/-- Witness for the amended C5: with iteration times 10(k+1)+1 ms, a status
register stuck at 0 times out on a QPCIE board and an immediately-done
status succeeds. -/
theorem c5_witness :
    pllCfgPollStage true (fun _ => 0) (fun k => 10 * (k : ℚ) + 11) =
      PollResult.timeout ∧
    pllCfgPollStage true (fun _ => 1) (fun k => 10 * (k : ℚ) + 11) =
      PollResult.success := by
  have hne : ∀ k : ℕ, 10 * (k : ℚ) + 11 ≠ 3000 := by
    intro k h
    have h1 : (10 * k : ℚ) = 2989 := by linarith
    have h2 : (10 * k : ℕ) = 2989 := by exact_mod_cast h1
    omega
  constructor
  · exact (c5_pllcfg_poll (fun _ => 0) (fun k => 10 * (k : ℚ) + 11)
      (fun k => by norm_num) (fun k => by norm_num) hne).2.2.2 (fun k => rfl)
  · exact (c5_pllcfg_poll (fun _ => 1) (fun k => 10 * (k : ℚ) + 11)
      (fun k => by norm_num) (fun k => by norm_num) hne).2.1 rfl

theorem phcfgPoll_exit (cc : ClockConn) (fuel k : ℕ)
    (h : ¬((cc.status k % 2 == 1) = false ∧ cc.status k / 128 % 256 = 0 ∧
        cc.t k < 3000)) :
    phcfgPoll cc (fuel + 1) k =
      ([Ev.readReg busyAddr], cc.status k % 2 == 1, cc.status k / 128 % 256,
        cc.t k) := by
  simp only [phcfgPoll]
  rw [if_neg h]

/-- C6 (amended): when the batched `WriteRegisters` of the PHCFG sequence in
SetPllClock fails, the EIO error is passed to `ReportError` with its result
discarded (line 111-112 has no `return`): the failure is only logged, the
function still polls the busy register, and its return value is decided by
the poll outcome alone — here, a successful poll yields return value 0
despite the failed write.  The claim's immediate abort with an I/O error
does not happen. -/
theorem c6_write_failure_continues (clockIndex nSteps : ℤ) (reg23val : ℕ)
    (cc : ClockConn) (hw : cc.wrStatus 0 ≠ 0) (hs : cc.status 0 = 1)
    (ht : ¬(3000 : ℚ) < cc.t 0) :
    errIo ∈ (setPllClock clockIndex nSteps true reg23val cc).2.1 ∧
    Ev.readReg busyAddr ∈ (setPllClock clockIndex nSteps true reg23val cc).1 ∧
    (setPllClock clockIndex nSteps true reg23val cc).2.2.1 = 0 := by
  have hexit := phcfgPoll_exit cc 301 0 (by simp [hs])
  simp only [setPllClock, if_pos rfl, show (302 : ℕ) = 301 + 1 from rfl, hexit,
    hs]
  simp only [if_true]
  norm_num [ht, hw]

/-- C6 counterexample: a connection whose batched register writes all fail
(status 1) while the busy register reports done at once.  SetPllClock logs
EIO twice (once per failed batch), keeps going — it reads the busy register
and issues the final clear-start batch after the failed write — and returns
0 (success), not an I/O error, contradicting "aborts immediately with an
I/O error return, performing no further register writes, reads, or status
polling". -/
theorem c6_counterexample :
    setPllClock 0 5 true 0 ⟨fun _ => 1, fun _ => 1, fun _ => 1⟩ =
      ([Ev.writeRegs [(35, 0), (36, 5), (35, 8704), (35, 8706)],
        Ev.readReg busyAddr, Ev.writeRegs [(35, 8704)]],
       [errIo, errIo], 0, 8704) := by
  have hexit := phcfgPoll_exit ⟨fun _ => 1, fun _ => 1, fun _ => 1⟩ 301 0
    (by norm_num)
  simp only [setPllClock, if_pos rfl, show (302 : ℕ) = 301 + 1 from rfl, hexit]
  norm_num [errIo, PHCFG_UPDN, PHCFG_START, busyAddr]
  constructor
  · decide
  · decide

/-- Witness for the amended C6 at the connection of the counterexample
setup but a distinct clock index and step count. -/
theorem c6_witness :
    errIo ∈ (setPllClock 1 (-3) true 4 ⟨fun _ => 1, fun _ => 1, fun _ => 1⟩).2.1 ∧
    Ev.readReg busyAddr ∈
      (setPllClock 1 (-3) true 4 ⟨fun _ => 1, fun _ => 1, fun _ => 1⟩).1 ∧
    (setPllClock 1 (-3) true 4 ⟨fun _ => 1, fun _ => 1, fun _ => 1⟩).2.2.1 = 0 :=
  c6_write_failure_continues 1 (-3) 4 ⟨fun _ => 1, fun _ => 1, fun _ => 1⟩
    (by norm_num) rfl (by norm_num)

theorem packMono_length (s : List (ℤ × ℤ)) :
    (packMono s).length = 3 * s.length := by
  induction s with
  | nil => rfl
  | cons hd tl ih =>
      obtain ⟨i, q⟩ := hd
      simp [packMono, packPairBytes, ih]
      ring

theorem packMimo_length (s : List ((ℤ × ℤ) × (ℤ × ℤ))) :
    (packMimo s).length = 3 * 2 * s.length := by
  induction s with
  | nil => rfl
  | cons hd tl ih =>
      obtain ⟨⟨i0, q0⟩, ⟨i1, q1⟩⟩ := hd
      simp [packMimo, packPairBytes, ih]
      ring

theorem wfmChunkCounts_sum (cap ch : ℕ) (hcap : 0 < cap / ch) :
    ∀ cnt, (wfmChunkCounts cap ch cnt).sum = cnt := by
  intro cnt
  induction cnt using Nat.strong_induction_on with
  | _ cnt ih =>
      by_cases hz : cnt = 0
      · subst hz
        unfold wfmChunkCounts
        simp
      · unfold wfmChunkCounts
        rw [dif_neg hz, dif_neg (Nat.pos_iff_ne_zero.mp hcap)]
        rw [List.sum_cons]
        by_cases hlt : cap / ch < cnt
        · simp only [if_pos hlt]
          rw [ih (cnt - cap / ch) (Nat.sub_lt (Nat.pos_of_ne_zero hz) hcap)]
          exact Nat.add_sub_cancel' (le_of_lt hlt)
        · simp only [if_neg hlt]
          rw [Nat.sub_self, ih 0 (Nat.pos_of_ne_zero hz)]
          exact Nat.add_zero cnt


theorem wfmChunkCounts_payload (cap ch : ℕ) (hcap : 0 < cap / ch) :
    ∀ cnt, ((wfmChunkCounts cap ch cnt).map (pktPayloadBytes ch)).sum +
      ((wfmChunkCounts cap ch cnt).map (fun s => 3 * ch * s % 4)).sum =
      3 * ch * cnt := by
  intro cnt
  induction cnt using Nat.strong_induction_on with
  | _ cnt ih =>
      by_cases hz : cnt = 0
      · subst hz
        unfold wfmChunkCounts
        simp
      · unfold wfmChunkCounts
        rw [dif_neg hz, dif_neg (Nat.pos_iff_ne_zero.mp hcap)]
        by_cases hlt : cap / ch < cnt
        · simp only [if_pos hlt, List.map_cons, List.sum_cons]
          have hrec := ih (cnt - cap / ch) (Nat.sub_lt (Nat.pos_of_ne_zero hz) hcap)
          have hsplit : pktPayloadBytes ch (cap / ch) + 3 * ch * (cap / ch) % 4 =
              3 * ch * (cap / ch) := by
            rw [pktPayloadBytes]
            omega
          have hmul : 3 * ch * (cap / ch) + 3 * ch * (cnt - cap / ch) = 3 * ch * cnt := by
            rw [← Nat.mul_add, Nat.add_sub_cancel' (le_of_lt hlt)]
          omega
        · simp only [if_neg hlt, List.map_cons, List.sum_cons, Nat.sub_self]
          have hrec := ih 0 (Nat.pos_of_ne_zero hz)
          have hsplit : pktPayloadBytes ch cnt + 3 * ch * cnt % 4 = 3 * ch * cnt := by
            rw [pktPayloadBytes]
            omega
          omega

/-- C8 (amended): for every successful UploadWFM the chunk sample counts sum
to `sample_count` exactly (the final packet is truncated to the remaining
samples), and each packet carries `(3*chCount*samplesToSend/4)*4` payload
bytes — `bufPos = 3*chCount*samplesToSend` truncated down to a multiple of
four (line 571).  Hence the total payload equals
`3*chCount*sample_count` minus the per-packet remainders `3*chCount*sₖ mod 4`,
with equality exactly when every packet's byte count is a multiple of four;
the original claim's unconditional equality fails (see the counterexample). -/
theorem c8_upload_payload_total (cap ch cnt : ℕ) (hcap : 0 < cap / ch) :
    (wfmChunkCounts cap ch cnt).sum = cnt ∧
    uploadPayloadTotal cap ch cnt +
      ((wfmChunkCounts cap ch cnt).map (fun s => 3 * ch * s % 4)).sum =
        3 * ch * cnt ∧
    ((∀ s ∈ wfmChunkCounts cap ch cnt, 3 * ch * s % 4 = 0) →
      uploadPayloadTotal cap ch cnt = 3 * ch * cnt) := by
  refine ⟨wfmChunkCounts_sum cap ch hcap cnt,
    wfmChunkCounts_payload cap ch hcap cnt, ?_⟩
  intro hall
  have h := wfmChunkCounts_payload cap ch hcap cnt
  have hz : ((wfmChunkCounts cap ch cnt).map (fun s => 3 * ch * s % 4)).sum = 0 := by
    apply List.sum_eq_zero
    intro x hx
    obtain ⟨s, hs, rfl⟩ := List.mem_map.mp hx
    exact hall s hs
  rw [uploadPayloadTotal] at *
  omega

/-- C8 counterexample: a single-channel upload of 5 samples (capacity 1020
samples per packet) packs to `bufPos = 15` bytes, but the packet payload is
truncated to `(15/4)*4 = 12` bytes, so the total payload sent is 12, not
the `3 * chCount * sample_count = 15` the claim requires. -/
theorem c8_counterexample :
    uploadPayloadTotal samples16InPkt 1 5 = 12 ∧ (12 : ℕ) ≠ 3 * 1 * 5 := by
  constructor
  · have hc : wfmChunkCounts samples16InPkt 1 5 = [5] := by
      rw [samples16InPkt]
      unfold wfmChunkCounts
      norm_num
      unfold wfmChunkCounts
      norm_num
    rw [uploadPayloadTotal, hc]
    norm_num [pktPayloadBytes]
  · norm_num

/-- Witness for the amended C8: two channels, 7 samples, capacity 1020. -/
theorem c8_witness :
    (wfmChunkCounts 1020 2 7).sum = 7 ∧
    uploadPayloadTotal 1020 2 7 +
      ((wfmChunkCounts 1020 2 7).map (fun s => 3 * 2 * s % 4)).sum = 3 * 2 * 7 := by
  have h := c8_upload_payload_total 1020 2 7 (by norm_num)
  exact ⟨h.1, h.2.1⟩
